import Mathlib

/-!
Verification of the Hybrid Knowledge Retrieval and Escalation Engine.

The definitions below are a shallow embedding of the matching engine in
`src/pages/Chat.tsx` (functions `normalize`, `extractKeyTerms`,
`findBestMatch` inside `sendMessage`) and of the escalation enricher in the
serverless chat function (`shouldGenerateImage`, `extractTopicForImage`,
and the response-shaping logic of the request handler).

JavaScript numbers are modelled as rationals; JavaScript strings as Lean
strings (lists of characters).  The stable `Array.prototype.sort` is
modelled by Mathlib insertion sort, which is stable for the comparator
used by the code.
-/

attribute [local semireducible] Rat.add Rat.sub Rat.mul Rat.inv

/-- Characters stripped by the regex `[?.,!'"]` in `normalize`. -/
def isPunctChar (c : Char) : Bool :=
  c == '?' || c == '.' || c == ',' || c == '!' || c == '\'' || c == '"'

/-- Whitespace characters, modelling the regex class `\s`. -/
def isWSChar (c : Char) : Bool :=
  c == ' ' || c == '\t' || c == '\n' || c == '\r'

/-- JavaScript `toLowerCase` on a string (ASCII-faithful). -/
def lowerStr (s : String) : String := String.mk (s.data.map Char.toLower)

/-- Lower-case a string and strip the punctuation set, as the first two
steps of `normalize` do. -/
def cleanChars (s : String) : List Char :=
  (s.data.map Char.toLower).filter (fun c => !(isPunctChar c))

/-- Split a character list on whitespace runs, dropping empty pieces.
The accumulator holds the current word reversed. -/
def splitWSAux : List Char → List Char → List (List Char)
  | [], acc => if acc.isEmpty then [] else [acc.reverse]
  | c :: rest, acc =>
    if isWSChar c then
      if acc.isEmpty then splitWSAux rest []
      else acc.reverse :: splitWSAux rest []
    else splitWSAux rest (c :: acc)

/-- The whitespace-separated tokens of the cleaned text.  `normalize`
followed by `split(' ')` (with empty tokens removed by the later
length filter) yields exactly this list. -/
def tokenize (s : String) : List String :=
  (splitWSAux (cleanChars s) []).map (fun l => String.mk l)

/-- The `normalize` helper of `sendMessage`: lower-case, strip
punctuation, collapse whitespace runs to single spaces, trim. -/
def normalizeText (s : String) : String :=
  String.intercalate " " (tokenize s)

/-- The `actionWords` dictionary of `sendMessage`, verbatim. -/
def actionWords : List String :=
  ["fee", "fees", "cost", "price", "admission", "result", "results", "exam", "exams",
   "schedule", "timing", "deadline", "date", "contact", "phone", "email", "address", "hostel",
   "placement", "syllabus", "eligibility", "documents", "required", "process", "apply", "registration"]

/-- The `criticalTerms` dictionary of `sendMessage`, verbatim. -/
def criticalTerms : List String :=
  ["1st", "2nd", "3rd", "4th", "5th", "6th", "first", "second", "third", "fourth", "fifth", "sixth",
   "i", "ii", "iii", "iv", "v", "vi", "semester"]

/-- The `fillerWords` dictionary of `sendMessage`, verbatim. -/
def fillerWords : List String :=
  ["what", "is", "the", "of", "for", "a", "an", "in", "to", "and", "or", "how", "much", "show",
   "me", "tell", "please", "can", "you", "about", "explain", "give", "details", "year", "sem"]

/-- The `singleCommonWords` dictionary used for the vague-query guard. -/
def singleCommonWords : List String :=
  ["fee", "fees", "exam", "result", "admission", "course", "hostel"]

/-- The `extractKeyTerms` helper of `sendMessage`: tokens of the
normalized text of length greater than one that are not filler words. -/
def extractKeyTerms (s : String) : List String :=
  (tokenize s).filter (fun w => decide (1 < w.length) && !(fillerWords.contains w))

/-- A knowledge-base entry, mirroring a row of the `questions` table as
read by `findBestMatch`. -/
structure Question where
  question_en : String
  answer_en : String
  category : Option String := none
  image_url : Option String := none
  keywords : List String := []
deriving DecidableEq

/-- The entry category in the form the scorer uses:
`q.category?.toLowerCase() || ''`. -/
def catOf (q : Question) : String :=
  match q.category with
  | none => ""
  | some c => lowerStr c

/-- The entry keywords in the form the scorer uses:
`q.keywords?.map(k =&gt; k.toLowerCase().trim()) || []`. -/
def kwOf (q : Question) : List String :=
  q.keywords.map (fun k => (lowerStr k).trim)

/-- Rule block 2 of the scorer: exact match of the normalized input
against some keyword phrase scores 98. -/
def rule2 (normalizedInput : String) (keywords : List String) : Option (ℚ × String) :=
  if keywords.any (fun kw => normalizeText kw == normalizedInput) then
    some (98, "keyword-phrase-exact")
  else none

/-- One loop iteration of rule block 3: term containment between the
input terms and a single keyword phrase. -/
def rule3kw (inputTerms : List String) (kw : String) : Option (ℚ × String) :=
  let keywordTerms := extractKeyTerms kw
  let matchedCount := (inputTerms.filter (fun t => keywordTerms.contains t)).length
  if matchedCount = inputTerms.length ∧ 1 ≤ inputTerms.length then
    some (92, "keyword-phrase-terms")
  else
    let reverseCount := (keywordTerms.filter (fun t => inputTerms.contains t)).length
    if reverseCount = keywordTerms.length ∧ 2 ≤ keywordTerms.length then
      some (90, "keyword-phrase-reverse")
    else none

/-- Rule block 3 of the scorer: the loop over keyword phrases stops at
the first phrase that fires in either direction. -/
def rule3 (inputTerms : List String) (keywords : List String) : Option (ℚ × String) :=
  keywords.findSome? (rule3kw inputTerms)

/-- The guarded coverage ratio of rule block 4: `count / total` when
the total is positive, `0` otherwise (the ternary of the code). -/
def ratioOf (c n : ℕ) : ℚ :=
  if 0 < n then (c : ℚ) / (n : ℚ) else 0

/-- Rule block 4 of the scorer: the critical-term gate followed by the
flexible term-matching rules, translated branch by branch. -/
def rule4 (inputTerms questionTerms : List String) : Option (ℚ × String) :=
  let matchedTerms := inputTerms.filter (fun t => questionTerms.any (fun qt => qt == t))
  let inputActionWords := inputTerms.filter (fun t => actionWords.contains t)
  let questionActionWords := questionTerms.filter (fun t => actionWords.contains t)
  let actionWordMatch :=
    0 < inputActionWords.length ∧
      inputActionWords.any (fun iaw => questionActionWords.contains iaw) = true
  let inputSubjectWords := inputTerms.filter (fun t => !(actionWords.contains t))
  let questionSubjectWords := questionTerms.filter (fun t => !(actionWords.contains t))
  let subjectMatchCount :=
    (inputSubjectWords.filter (fun isw => questionSubjectWords.contains isw)).length
  let subjectMatchRatio : ℚ := ratioOf subjectMatchCount inputSubjectWords.length
  let reverseSubjectCount :=
    (questionSubjectWords.filter (fun qsw => inputSubjectWords.contains qsw)).length
  let reverseSubjectRatio : ℚ := ratioOf reverseSubjectCount questionSubjectWords.length
  let inputCritical := inputTerms.filter (fun t => criticalTerms.contains t)
  let questionCritical := questionTerms.filter (fun t => criticalTerms.contains t)
  let criticalMismatch :=
    0 < inputCritical.length ∧ 0 < questionCritical.length ∧
      (inputCritical.any (fun ic => !(questionCritical.contains ic)) = true ∨
       questionCritical.any (fun qc => !(inputCritical.contains qc)) = true)
  if criticalMismatch then some (0, "critical-mismatch")
  else if matchedTerms.length = inputTerms.length ∧ 2 ≤ inputTerms.length then
    some (95, "all-terms-match")
  else if actionWordMatch ∧ 8/10 ≤ reverseSubjectRatio ∧ 5/10 ≤ subjectMatchRatio then
    some (92, "reverse-full-match")
  else if actionWordMatch ∧ 7/10 ≤ subjectMatchRatio then
    some (85 + subjectMatchRatio * 10, "subject-action-match")
  else if actionWordMatch ∧ 8/10 ≤ reverseSubjectRatio then
    some (85, "reverse-subject-action")
  else none

/-- Rule block 5 of the scorer: category equals some input term and at
least one input term also occurs among the question terms. -/
def rule5 (inputTerms questionTerms : List String) (category : String) : Option (ℚ × String) :=
  let categoryMatch := inputTerms.any (fun t => category == t)
  let hasOtherMatch := inputTerms.any (fun t => questionTerms.any (fun qt => qt == t))
  if categoryMatch ∧ hasOtherMatch then some (72, "category-term") else none

/-- One guarded rule block acting on the mutable `(score, matchReason)`
state: the block runs only when the score is still zero and its guard
holds, exactly like the `if (score === 0 && ...)` blocks of the code. -/
def step (st : ℚ × String) (g : Bool) (rule : Option (ℚ × String)) : ℚ × String :=
  if st.1 = 0 ∧ g = true then rule.getD st else st

/-- The per-entry scorer of `findBestMatch`: the five sequential rule
blocks applied to the initial state, first over the exact-match rule,
then keywords, terms, and category. -/
def scoreQuestion (normalizedInput : String) (inputTerms : List String) (q : Question) :
    ℚ × String :=
  let questionText := normalizeText q.question_en
  let questionTerms := extractKeyTerms q.question_en
  let category := catOf q
  let keywords := kwOf q
  let st1 : ℚ × String :=
    if normalizedInput = questionText then ((100 : ℚ), "exact") else ((0 : ℚ), "")
  let st2 := step st1 (!keywords.isEmpty) (rule2 normalizedInput keywords)
  let st3 := step st2 (!keywords.isEmpty) (rule3 inputTerms keywords)
  let st4 := step st3 (decide (1 ≤ inputTerms.length)) (rule4 inputTerms questionTerms)
  let st5 := step st4 (!(category == "")) (rule5 inputTerms questionTerms category)
  st5

/-- A scored candidate: the entry together with its position in the
knowledge-base snapshot and the score and reason the scorer produced. -/
structure ScoredQ where
  q : Question
  idx : Nat
  score : ℚ
  reason : String
deriving DecidableEq

/-- Score every entry in order, decorating each with its position. -/
def scoreAll (normalizedInput : String) (inputTerms : List String) :
    Nat → List Question → List ScoredQ
  | _, [] => []
  | i, q :: qs =>
    let sc := scoreQuestion normalizedInput inputTerms q
    ⟨q, i, sc.1, sc.2⟩ :: scoreAll normalizedInput inputTerms (i + 1) qs

/-- The comparator `(a, b) =&gt; b.score - a.score` of the code: `a` may
come before `b` when its score is at least that of `b`. -/
def sortRel (a b : ScoredQ) : Prop := b.score ≤ a.score

instance : DecidableRel sortRel :=
  fun a b => inferInstanceAs (Decidable (b.score ≤ a.score))

instance : IsTotal ScoredQ sortRel := ⟨fun a b => le_total b.score a.score⟩

instance : IsTrans ScoredQ sortRel := ⟨fun _ _ _ h1 h2 => le_trans h2 h1⟩

/-- The stable descending sort of the candidate list, modelling the
stable JavaScript `sort((a, b) =&gt; b.score - a.score)`. -/
def sortDesc (l : List ScoredQ) : List ScoredQ := List.insertionSort sortRel l

/-- The outcome of `findBestMatch` when the database is consulted:
either a single confident candidate or an ambiguous cluster. -/
inductive MatchResult where
  | confident (m : ScoredQ)
  | ambiguous (ms : List ScoredQ)
deriving DecidableEq

/-- The `hasActionWord` flag of `sendMessage`: some meaningful term of
the query is an action word. -/
def hasActionWordQ (content : String) : Bool :=
  (extractKeyTerms content).any (fun t => actionWords.contains t)

/-- The `isExplanationQuery` flag of `sendMessage`: at least one
meaningful term and no action word. -/
def isExplanationQuery (content : String) : Bool :=
  !hasActionWordQ content && decide (1 ≤ (extractKeyTerms content).length)

/-- The `isVagueQuery` flag of `sendMessage`: exactly one meaningful
term and it belongs to `singleCommonWords`. -/
def isVagueQuery (content : String) : Bool :=
  match extractKeyTerms content with
  | [t] => singleCommonWords.contains t
  | _ => false

/-- The `CONFIDENCE_THRESHOLD` of `findBestMatch`: 85 for vague
queries, 70 otherwise. -/
def confidenceThreshold (content : String) : ℚ :=
  if isVagueQuery content then 85 else 70

/-- The scored candidates that survive the confidence threshold, in
original knowledge-base order (the `scored.filter(...)` list before the
sort). -/
def candidatesAboveThreshold (content : String) (questions : List Question) : List ScoredQ :=
  (scoreAll (normalizeText content) (extractKeyTerms content) 0 questions).filter
    (fun s => confidenceThreshold content ≤ s.score)

/-- The `findBestMatch` function of `sendMessage`.  `none` models the
`null` return, after which the caller escalates to the generative
fallback. -/
def findBestMatch (content : String) (hasImage : Bool) (questions : List Question) :
    Option MatchResult :=
  if hasImage then none
  else if isExplanationQuery content = true then none
  else if questions.isEmpty then none
  else
    let matchList := sortDesc (candidatesAboveThreshold content questions)
    match matchList with
    | [] => none
    | topM :: _ =>
      let topScore := topM.score
      let topMatches := matchList.filter (fun m => topScore - 5 ≤ m.score)
      if 1 < topMatches.length ∧ topScore < 90 then some (.ambiguous (topMatches.take 3))
      else some (.confident topM)

/-- The strict order a stable descending sort realises: strictly larger
score first, ties resolved by the original position. -/
def lexR (a b : ScoredQ) : Prop :=
  b.score < a.score ∨ (a.score = b.score ∧ a.idx < b.idx)

/-- The cluster of above-threshold candidates within the ambiguity
margin 5 of the top score, in original knowledge-base order. -/
def clusterAt (content : String) (questions : List Question) (top : ℚ) : List ScoredQ :=
  (candidatesAboveThreshold content questions).filter (fun m => top - 5 ≤ m.score)

/-- The `imageGenerationTriggers` dictionary of the chat function,
verbatim. -/
def imageGenerationTriggers : List String :=
  ["explain", "explanation", "diagram", "flow", "process", "architecture",
   "example", "show me", "draw", "image", "illustrate", "visualize",
   "how does", "how it works", "structure", "flowchart", "chart",
   "demonstrate", "depict", "represent", "layout", "design", "model"]

/-- The `noImageTopics` dictionary of the chat function, verbatim. -/
def noImageTopics : List String :=
  ["fees", "fee structure", "phone", "contact", "address", "email",
   "timing", "hours", "date", "deadline", "cost", "price", "number",
   "location", "directions", "office", "registration number"]

/-- JavaScript `String.prototype.includes`: the second string occurs as
a contiguous substring of the first. -/
def hasSub (s sub : String) : Bool :=
  (List.range (s.data.length + 1)).any (fun i => ((s.data.drop i).take sub.data.length) == sub.data)

/-- The `shouldGenerateImage` function of the chat function: any no-image
topic suppresses generation, otherwise any trigger enables it. -/
def shouldGenerateImage (content : String) : Bool :=
  let contentLower := lowerStr content
  if noImageTopics.any (fun topic => hasSub contentLower topic) then false
  else imageGenerationTriggers.any (fun trig => hasSub contentLower trig)

/-- A reference link of the structured fallback payload. -/
structure Link where
  title : String
  url : String
deriving DecidableEq

/-- The structured payload shape the fallback may return:
a `type` tag, the answer text, an optional image prompt and optional
links.  `none` models a missing (undefined) JSON field. -/
structure Payload where
  ptype : String
  text : String
  image_prompt : Option String := none
  links : Option (List Link) := none
deriving DecidableEq

/-- The `responseData` object the chat function returns to its caller. -/
structure RespData where
  message : String
  source : String
  generated_image : Option String := none
  links : Option (List Link) := none
deriving DecidableEq

/-- JavaScript truthiness of an optional string field: present and
non-empty. -/
def optTruthy : Option String → Bool
  | none => false
  | some s => !s.isEmpty

/-- The fenced-code cleanup the handler applies before `JSON.parse`:
trim, drop a leading three-backtick-json or three-backtick marker, drop a
trailing three-backtick marker, trim again. -/
def cleanFenced (s : String) : String :=
  let m1 := s.trim
  let m2 := if m1.startsWith "```json" then m1.drop 7 else m1
  let m3 := if m2.startsWith "```" then m2.drop 3 else m2
  let m4 := if m3.endsWith "```" then m3.dropRight 3 else m3
  m4.trim

/-- The response-shaping logic of the request handler, after the text
model answered with `aiMessage`.  `parseJson` models `JSON.parse`
restricted to the payload shape (`none` models a parse failure or a
non-payload value), and `genImage` models the secondary image-generation
request (`none` models a failed request, a non-OK status, or a response
without an image URL). -/
def buildResponse (needsImage : Bool) (aiMessage : String)
    (parseJson : String → Option Payload) (genImage : String → Option String) : RespData :=
  let base : RespData := { message := aiMessage, source := "ai" }
  if needsImage then
    match parseJson (cleanFenced aiMessage) with
    | none => base
    | some parsed =>
      if parsed.ptype == "text+image+links" ∧ optTruthy parsed.image_prompt = true then
        { message := parsed.text
          source := "ai"
          links := some (parsed.links.getD [])
          generated_image := genImage (parsed.image_prompt.getD "") }
      else base
  else base

/-- The end-to-end enrichment decision of the request handler: whether
the structured payload is parsed at all is decided by
`shouldGenerateImage` on the last user message. -/
def handleChat (lastUserMessage aiMessage : String)
    (parseJson : String → Option Payload) (genImage : String → Option String) : RespData :=
  buildResponse (shouldGenerateImage lastUserMessage) aiMessage parseJson genImage

/-- A rule block either leaves the state unchanged or returns the value
the rule produced. -/
theorem step_eq_or (st : ℚ × String) (g : Bool) (rule : Option (ℚ × String)) :
    step st g rule = st ∨ ∃ r, rule = some r ∧ step st g rule = r := by
  unfold step
  split
  · cases rule with
    | none => exact Or.inl rfl
    | some r => exact Or.inr ⟨r, rfl, rfl⟩
  · exact Or.inl rfl

/-- A rule block cannot overwrite a nonzero score. -/
theorem step_of_ne (st : ℚ × String) (g : Bool) (rule : Option (ℚ × String))
    (h : st.1 ≠ 0) : step st g rule = st := by
  unfold step
  rw [if_neg]
  rintro ⟨h1, _⟩
  exact h h1

/-- Transfer a predicate through one rule block. -/
theorem step_pred {P : ℚ × String → Prop} {st : ℚ × String} {g : Bool}
    {rule : Option (ℚ × String)} (hst : P st) (hrule : ∀ r, rule = some r → P r) :
    P (step st g rule) := by
  rcases step_eq_or st g rule with h | ⟨r, hr, h⟩
  · rw [h]; exact hst
  · rw [h]; exact hrule r hr

/-- The only value rule block 2 can produce. -/
theorem rule2_out {ni : String} {kws : List String} {r : ℚ × String}
    (h : rule2 ni kws = some r) : r = (98, "keyword-phrase-exact") := by
  simp only [rule2] at h
  split at h
  · exact (Option.some.inj h).symm
  · exact absurd h (by simp)

/-- The only values one keyword iteration of rule block 3 can produce. -/
theorem rule3kw_out {it : List String} {kw : String} {r : ℚ × String}
    (h : rule3kw it kw = some r) :
    r = (92, "keyword-phrase-terms") ∨ r = (90, "keyword-phrase-reverse") := by
  simp only [rule3kw] at h
  split at h
  · exact Or.inl (Option.some.inj h).symm
  · split at h
    · exact Or.inr (Option.some.inj h).symm
    · exact absurd h (by simp)

/-- The only values rule block 3 can produce. -/
theorem rule3_out {it : List String} {kws : List String} {r : ℚ × String}
    (h : rule3 it kws = some r) :
    r = (92, "keyword-phrase-terms") ∨ r = (90, "keyword-phrase-reverse") := by
  unfold rule3 at h
  induction kws with
  | nil => simp at h
  | cons k ks ih =>
    rw [List.findSome?_cons] at h
    cases hk : rule3kw it k with
    | none => rw [hk] at h; exact ih h
    | some v =>
      rw [hk] at h
      exact (Option.some.inj h) ▸ rule3kw_out hk

/-- The guarded coverage ratio never exceeds one when the count is at
most the total. -/
theorem ratioOf_le_one (c n : ℕ) (hcn : c ≤ n) : ratioOf c n ≤ 1 := by
  unfold ratioOf
  split
  · rename_i hn
    rw [div_le_one (by exact_mod_cast hn)]
    exact_mod_cast hcn
  · norm_num

/-- The only score values rule block 4 can produce: a forced zero, an
85, or a value in the band from 90 to 95. -/
theorem rule4_out {it qt : List String} {r : ℚ × String}
    (h : rule4 it qt = some r) :
    r.1 = 0 ∨ r.1 = 85 ∨ (90 ≤ r.1 ∧ r.1 ≤ 95) := by
  simp only [rule4] at h
  split at h
  · obtain rfl := (Option.some.inj h).symm; norm_num
  · split at h
    · obtain rfl := (Option.some.inj h).symm; norm_num
    · split at h
      · obtain rfl := (Option.some.inj h).symm; norm_num
      · split at h
        · rename_i hcond
          obtain rfl := (Option.some.inj h).symm
          have hle :=
            ratioOf_le_one
              ((List.filter (fun t => !actionWords.contains t) it).filter
                  (fun isw =>
                    (List.filter (fun t => !actionWords.contains t) qt).contains isw)).length
              (List.filter (fun t => !actionWords.contains t) it).length
              (List.length_filter_le _ _)
          refine Or.inr (Or.inr ⟨?_, ?_⟩)
          · simp only []
            linarith [hcond.2]
          · simp only []
            linarith [hle]
        · split at h
          · obtain rfl := (Option.some.inj h).symm; norm_num
          · exact Option.noConfusion h

/-- The only value rule block 5 can produce. -/
theorem rule5_out {it qt : List String} {cat : String} {r : ℚ × String}
    (h : rule5 it qt cat = some r) : r = (72, "category-term") := by
  simp only [rule5] at h
  split at h
  · exact (Option.some.inj h).symm
  · exact Option.noConfusion h

/-- Transfer a predicate through the whole rule chain of the scorer. -/
theorem scoreQuestion_pred {P : ℚ × String → Prop} {ni : String} {it : List String}
    {q : Question}
    (h1 : P (if ni = normalizeText q.question_en then ((100 : ℚ), "exact") else ((0 : ℚ), "")))
    (h2 : ∀ r, rule2 ni (kwOf q) = some r → P r)
    (h3 : ∀ r, rule3 it (kwOf q) = some r → P r)
    (h4 : ∀ r, rule4 it (extractKeyTerms q.question_en) = some r → P r)
    (h5 : ∀ r, rule5 it (extractKeyTerms q.question_en) (catOf q) = some r → P r) :
    P (scoreQuestion ni it q) := by
  simp only [scoreQuestion]
  exact step_pred (step_pred (step_pred (step_pred h1 h2) h3) h4) h5

/-- An exact normalized match always produces score 100 with reason
exact: rule block 1 fires and no later block can overwrite it. -/
theorem scoreQuestion_of_exact {ni : String} (it : List String) (q : Question)
    (h : ni = normalizeText q.question_en) :
    scoreQuestion ni it q = (100, "exact") := by
  simp only [scoreQuestion, if_pos h]
  rw [step_of_ne ((100 : ℚ), "exact") _ _ (by norm_num),
    step_of_ne ((100 : ℚ), "exact") _ _ (by norm_num),
    step_of_ne ((100 : ℚ), "exact") _ _ (by norm_num),
    step_of_ne ((100 : ℚ), "exact") _ _ (by norm_num)]

/-- Every score the scorer can produce is 0, 72, 85, or lies in the
band from 90 to 100. -/
theorem scoreQuestion_range (ni : String) (it : List String) (q : Question) :
    (scoreQuestion ni it q).1 = 0 ∨ (scoreQuestion ni it q).1 = 72 ∨
      (scoreQuestion ni it q).1 = 85 ∨
      (90 ≤ (scoreQuestion ni it q).1 ∧ (scoreQuestion ni it q).1 ≤ 100) := by
  apply @scoreQuestion_pred (fun r =>
    r.1 = 0 ∨ r.1 = 72 ∨ r.1 = 85 ∨ (90 ≤ r.1 ∧ r.1 ≤ 100)) ni it q
  · split
    · norm_num
    · norm_num
  · intro r hr
    rw [rule2_out hr]
    norm_num
  · intro r hr
    rcases rule3_out hr with h | h <;> rw [h] <;> norm_num
  · intro r hr
    rcases rule4_out hr with h | h | ⟨h1, h2⟩
    · exact Or.inl h
    · exact Or.inr (Or.inr (Or.inl h))
    · exact Or.inr (Or.inr (Or.inr ⟨h1, by linarith⟩))
  · intro r hr
    rw [rule5_out hr]
    norm_num

/-- The scorer never exceeds 100. -/
theorem scoreQuestion_le_100 (ni : String) (it : List String) (q : Question) :
    (scoreQuestion ni it q).1 ≤ 100 := by
  rcases scoreQuestion_range ni it q with h | h | h | ⟨_, h⟩
  · rw [h]; norm_num
  · rw [h]; norm_num
  · rw [h]; norm_num
  · exact h

/-- Without an exact normalized match the scorer stays at or below 98. -/
theorem scoreQuestion_le_98_of_ne {ni : String} {it : List String} {q : Question}
    (h : ni ≠ normalizeText q.question_en) : (scoreQuestion ni it q).1 ≤ 98 := by
  apply @scoreQuestion_pred (fun r => r.1 ≤ 98) ni it q
  · rw [if_neg h]
    norm_num
  · intro r hr
    rw [rule2_out hr]
  · intro r hr
    rcases rule3_out hr with h' | h' <;> rw [h'] <;> norm_num
  · intro r hr
    rcases rule4_out hr with h' | h' | ⟨_, h'⟩
    · rw [h']; norm_num
    · rw [h']; norm_num
    · linarith
  · intro r hr
    rw [rule5_out hr]
    norm_num

/-- Score 100 happens exactly on an exact normalized match, and then
the reason is the exact tag. -/
theorem scoreQuestion_eq_100 {ni : String} {it : List String} {q : Question}
    (h : (scoreQuestion ni it q).1 = 100) :
    scoreQuestion ni it q = (100, "exact") ∧ ni = normalizeText q.question_en := by
  by_cases he : ni = normalizeText q.question_en
  · exact ⟨scoreQuestion_of_exact it q he, he⟩
  · have hle := @scoreQuestion_le_98_of_ne ni it q he
    rw [h] at hle
    norm_num at hle

/-- What membership in the scored candidate list means: the underlying
entry is in the snapshot, the index is at least the base index, and the
score and reason come from the scorer. -/
theorem mem_scoreAll {ni : String} {it : List String} {i : Nat} {qs : List Question}
    {x : ScoredQ} (h : x ∈ scoreAll ni it i qs) :
    x.q ∈ qs ∧ i ≤ x.idx ∧ x.score = (scoreQuestion ni it x.q).1 ∧
      x.reason = (scoreQuestion ni it x.q).2 := by
  induction qs generalizing i with
  | nil => simp [scoreAll] at h
  | cons q qs ih =>
    simp only [scoreAll] at h
    rcases List.mem_cons.mp h with rfl | h'
    · exact ⟨List.mem_cons_self _ _, le_refl _, rfl, rfl⟩
    · obtain ⟨hq, hi, hs, hr⟩ := ih h'
      exact ⟨List.mem_cons_of_mem _ hq, le_trans (Nat.le_succ i) hi, hs, hr⟩

/-- The scored candidate list carries strictly increasing indices. -/
theorem scoreAll_pairwise_idx (ni : String) (it : List String) (i : Nat)
    (qs : List Question) :
    (scoreAll ni it i qs).Pairwise (fun a b => a.idx < b.idx) := by
  induction qs generalizing i with
  | nil => simp [scoreAll]
  | cons q qs ih =>
    simp only [scoreAll]
    refine List.Pairwise.cons ?_ (ih (i + 1))
    intro b hb
    have hi := (mem_scoreAll hb).2.1
    exact lt_of_lt_of_le (Nat.lt_succ_self i) hi

/-- Scoring distributes over concatenation of the snapshot, shifting
the base index. -/
theorem scoreAll_append (ni : String) (it : List String) (i : Nat)
    (l1 l2 : List Question) :
    scoreAll ni it i (l1 ++ l2) =
      scoreAll ni it i l1 ++ scoreAll ni it (i + l1.length) l2 := by
  induction l1 generalizing i with
  | nil => simp [scoreAll]
  | cons q qs ih =>
    simp only [List.cons_append, scoreAll, List.length_cons, List.append_eq]
    rw [ih (i + 1)]
    have harith : i + 1 + qs.length = i + (qs.length + 1) := by omega
    rw [harith]

/-- Inserting an element whose index lies below every index of a
lex-ordered list keeps the list lex-ordered: this is the stability of
the insertion sort. -/
theorem orderedInsert_pairwise_lexR (x : ScoredQ) :
    ∀ L : List ScoredQ, L.Pairwise lexR → (∀ b ∈ L, x.idx < b.idx) →
      (List.orderedInsert sortRel x L).Pairwise lexR
  | [], _, _ => by simp [List.orderedInsert, List.pairwise_singleton]
  | b :: t, hp, hidx => by
    rw [List.orderedInsert]
    split
    · rename_i hxb
      refine List.Pairwise.cons ?_ hp
      intro c hc
      rcases List.mem_cons.mp hc with rfl | hct
      · rcases lt_or_eq_of_le hxb with hlt | heq
        · exact Or.inl hlt
        · exact Or.inr ⟨heq.symm, hidx c (List.mem_cons_self _ _)⟩
      · have hbc := (List.pairwise_cons.mp hp).1 c hct
        have hcb : c.score ≤ b.score := by
          rcases hbc with h' | ⟨h', _⟩
          · exact le_of_lt h'
          · exact le_of_eq h'.symm
        rcases lt_or_eq_of_le (le_trans hcb hxb) with hlt | heq
        · exact Or.inl hlt
        · exact Or.inr ⟨heq.symm, hidx c (List.mem_cons_of_mem _ hct)⟩
    · rename_i hxb
      have hbx : x.score < b.score := not_le.mp hxb
      refine List.Pairwise.cons ?_
        (orderedInsert_pairwise_lexR x t (List.pairwise_cons.mp hp).2
          (fun b' hb' => hidx b' (List.mem_cons_of_mem _ hb')))
      intro c hc
      rcases (List.mem_orderedInsert sortRel).mp hc with rfl | hct
      · exact Or.inl hbx
      · exact (List.pairwise_cons.mp hp).1 c hct

/-- The stable descending sort of an index-increasing list is ordered
by score descending with ties kept in original order. -/
theorem sortDesc_pairwise_lexR {l : List ScoredQ}
    (h : l.Pairwise (fun a b => a.idx < b.idx)) : (sortDesc l).Pairwise lexR := by
  induction l with
  | nil => simp [sortDesc, List.insertionSort]
  | cons x xs ih =>
    unfold sortDesc at ih ⊢
    rw [List.insertionSort]
    apply orderedInsert_pairwise_lexR
    · exact ih (List.pairwise_cons.mp h).2
    · intro b hb
      have hbxs : b ∈ xs := (List.mem_insertionSort sortRel).mp hb
      exact (List.pairwise_cons.mp h).1 b hbxs

/-- The sort is a permutation of its input. -/
theorem sortDesc_perm (l : List ScoredQ) : List.Perm (sortDesc l) l :=
  List.perm_insertionSort sortRel l

/-- The sort is sorted for the score comparator. -/
theorem sortDesc_sorted (l : List ScoredQ) : List.Sorted sortRel (sortDesc l) :=
  List.sorted_insertionSort sortRel l

/-- The head of the sorted candidate list dominates every score of the
input list. -/
theorem head_score_max {l : List ScoredQ} {h0 : ScoredQ} {t : List ScoredQ}
    (hs : sortDesc l = h0 :: t) : ∀ x ∈ l, x.score ≤ h0.score := by
  intro x hx
  have hx' : x ∈ h0 :: t := by
    rw [← hs]
    exact ((sortDesc_perm l).mem_iff).mpr hx
  rcases List.mem_cons.mp hx' with rfl | hxt
  · exact le_refl _
  · have hsorted := sortDesc_sorted l
    rw [hs] at hsorted
    exact List.rel_of_sorted_cons hsorted x hxt

/-- The confidence threshold is at least the default 70. -/
theorem confidenceThreshold_ge_70 (content : String) : 70 ≤ confidenceThreshold content := by
  unfold confidenceThreshold
  split <;> norm_num

/-- The confidence threshold never exceeds 100. -/
theorem confidenceThreshold_le_100 (content : String) : confidenceThreshold content ≤ 100 := by
  unfold confidenceThreshold
  split <;> norm_num

/-- What membership among the above-threshold candidates means. -/
theorem mem_candidates {content : String} {questions : List Question} {x : ScoredQ}
    (h : x ∈ candidatesAboveThreshold content questions) :
    x.q ∈ questions ∧ confidenceThreshold content ≤ x.score ∧
      x.score = (scoreQuestion (normalizeText content) (extractKeyTerms content) x.q).1 ∧
      x.reason = (scoreQuestion (normalizeText content) (extractKeyTerms content) x.q).2 := by
  unfold candidatesAboveThreshold at h
  have h1 := List.mem_filter.mp h
  obtain ⟨hq, _, hs, hr⟩ := mem_scoreAll h1.1
  exact ⟨hq, of_decide_eq_true h1.2, hs, hr⟩

/-- The above-threshold candidates keep their strictly increasing
indices. -/
theorem candidates_pairwise_idx (content : String) (questions : List Question) :
    (candidatesAboveThreshold content questions).Pairwise (fun a b => a.idx < b.idx) :=
  List.Pairwise.filter _ (scoreAll_pairwise_idx _ _ 0 questions)

/-- When no candidate survives the threshold the resolver yields no
match. -/
theorem findBestMatch_nil {content : String} {questions : List Question}
    (hs : sortDesc (candidatesAboveThreshold content questions) = []) :
    findBestMatch content false questions = none := by
  unfold findBestMatch
  split
  · rfl
  · split
    · rfl
    · split
      · rfl
      · rw [hs]

/-- Reduction of the resolver once the sorted above-threshold list is
known to be nonempty: the engine either reports an ambiguity among the
close top scores or the confident head. -/
theorem findBestMatch_cons {content : String} {questions : List Question}
    (hexp : isExplanationQuery content = false)
    {h0 : ScoredQ} {t : List ScoredQ}
    (hs : sortDesc (candidatesAboveThreshold content questions) = h0 :: t) :
    findBestMatch content false questions =
      (if 1 < ((h0 :: t).filter (fun m => h0.score - 5 ≤ m.score)).length ∧ h0.score < 90
       then some (.ambiguous (((h0 :: t).filter (fun m => h0.score - 5 ≤ m.score)).take 3))
       else some (.confident h0)) := by
  have hq : questions.isEmpty = false := by
    cases hqs : questions with
    | nil =>
      rw [hqs] at hs
      simp [candidatesAboveThreshold, scoreAll, sortDesc, List.insertionSort] at hs
    | cons a l => rfl
  unfold findBestMatch
  rw [if_neg (by simp), if_neg (by rw [hexp]; simp), if_neg (by rw [hq]; simp), hs]

/-- C2: the claim says a critical-term mismatch forces score 0 and no
lower-priority rule (including category-term) can assign a nonzero
score.  The code violates this: the category-term block is guarded only
by the score still being zero, which is exactly the state the gate
leaves behind.  Against the entry with question text 2nd semester fees
the query 3rd semester fees scores 0 with reason critical-mismatch when
the category contributes nothing, but with category fees the
category-term rule fires afterwards with score 72, and the engine even
resolves that entry as a confident match at the default threshold. -/
theorem C2_critical_gate_not_final :
    scoreQuestion (normalizeText "3rd semester fees") (extractKeyTerms "3rd semester fees")
      { question_en := "2nd semester fees", answer_en := "Second semester fee details",
        category := some "general" } = (0, "critical-mismatch") ∧
    scoreQuestion (normalizeText "3rd semester fees") (extractKeyTerms "3rd semester fees")
      { question_en := "2nd semester fees", answer_en := "Second semester fee details",
        category := some "fees" } = (72, "category-term") ∧
    findBestMatch "3rd semester fees" false
      [{ question_en := "2nd semester fees", answer_en := "Second semester fee details",
         category := some "fees" }] =
      some (MatchResult.confident
        ⟨{ question_en := "2nd semester fees", answer_en := "Second semester fee details",
           category := some "fees" }, 0, 72, "category-term"⟩) := by
  refine ⟨?_, ?_, ?_⟩ <;> decide

/-- C3: a query with at least one meaningful term and no action-word
term is Explanation-only; the engine never consults the knowledge base
and always escalates, whatever the snapshot contains. -/
theorem C3_explanation_only_always_escalates (content : String) (hasImage : Bool)
    (questions : List Question)
    (hterms : extractKeyTerms content ≠ [])
    (hact : ∀ t ∈ extractKeyTerms content, t ∉ actionWords) :
    findBestMatch content hasImage questions = none := by
  have h1 : hasActionWordQ content = false := by
    unfold hasActionWordQ
    rw [List.any_eq_false]
    intro t ht
    simpa using hact t ht
  have hexp : isExplanationQuery content = true := by
    unfold isExplanationQuery
    rw [h1]
    simp only [Bool.not_false, Bool.true_and, decide_eq_true_eq]
    cases h : extractKeyTerms content with
    | nil => exact absurd h hterms
    | cons a l => simp
  unfold findBestMatch
  cases hasImage with
  | false => rw [if_neg (by simp), if_pos (by rw [hexp])]
  | true => rw [if_pos rfl]

/-- C3 witness: the query computer science escalates even though the
snapshot holds an entry about computer science fees. -/
theorem C3_witness :
    findBestMatch "computer science" false
      [{ question_en := "computer science fees", answer_en := "CS fees are 45000" }] = none :=
  C3_explanation_only_always_escalates "computer science" false _ (by decide) (by decide)

/-- C6: a query that carries an image skips knowledge-base matching
entirely for every text content and every snapshot. -/
theorem C6_image_query_always_escalates (content : String) (questions : List Question) :
    findBestMatch content true questions = none := by
  unfold findBestMatch
  rw [if_pos rfl]

/-- C7: the enricher wants an image exactly when some trigger term
occurs in the lowered query text and no excluded topic does, and any
excluded topic alone forces the decision to false. -/
theorem C7_image_decision_iff (content : String) :
    (shouldGenerateImage content = true ↔
      ((∃ trig ∈ imageGenerationTriggers, hasSub (lowerStr content) trig = true) ∧
        ¬ ∃ topic ∈ noImageTopics, hasSub (lowerStr content) topic = true)) ∧
    ((∃ topic ∈ noImageTopics, hasSub (lowerStr content) topic = true) →
      shouldGenerateImage content = false) := by
  constructor
  · constructor
    · intro h
      simp only [shouldGenerateImage] at h
      by_cases hno : noImageTopics.any (fun topic => hasSub (lowerStr content) topic) = true
      · rw [if_pos hno] at h
        exact absurd h (by simp)
      · rw [if_neg hno] at h
        refine ⟨by simpa [List.any_eq_true] using h, ?_⟩
        intro hex
        exact hno (by rw [List.any_eq_true]; simpa using hex)
    · rintro ⟨hex, hno⟩
      simp only [shouldGenerateImage]
      rw [if_neg, List.any_eq_true]
      · simpa using hex
      · intro hc
        exact hno (by simpa [List.any_eq_true] using hc)
  · intro hex
    simp only [shouldGenerateImage]
    rw [if_pos (by rw [List.any_eq_true]; simpa using hex)]

/-- C7 witness: the excluded topic fee structure suppresses the image
even though the trigger draw is present, while the same trigger without
an excluded topic enables it. -/
theorem C7_witness :
    shouldGenerateImage "draw the fee structure" = false ∧
    shouldGenerateImage "draw a binary tree" = true := by
  constructor
  · exact (C7_image_decision_iff "draw the fee structure").2 (by decide)
  · exact (C7_image_decision_iff "draw a binary tree").1.mpr (by decide)

/-- C8: when the cleaned fallback body does not parse as a structured
payload, the enricher returns the raw response as plain text with no
links and no generated image; being a total function it raises nothing. -/
theorem C8_parse_failure_degrades_to_plain_text (needsImage : Bool) (aiMessage : String)
    (parseJson : String → Option Payload) (genImage : String → Option String)
    (hparse : parseJson (cleanFenced aiMessage) = none) :
    buildResponse needsImage aiMessage parseJson genImage =
      { message := aiMessage, source := "ai", generated_image := none, links := none } := by
  simp only [buildResponse]
  cases needsImage with
  | false => rfl
  | true =>
    rw [if_pos rfl, hparse]

/-- C8 witness: a truncated fenced JSON body with a failing parse comes
back verbatim as plain text. -/
theorem C8_witness :
    buildResponse true "```json\n\x7b \"type\": \"text+image+links\", \"text\": \"Colle"
      (fun _ => none) (fun _ => none) =
      { message := "```json\n\x7b \"type\": \"text+image+links\", \"text\": \"Colle",
        source := "ai", generated_image := none, links := none } :=
  C8_parse_failure_degrades_to_plain_text true _ (fun _ => none) (fun _ => none) rfl

/-- C9: when the secondary image-generation request fails or yields no
image URL, the enricher still returns the parsed text and links
unchanged, and the text and links never depend on the image generator
at all. -/
theorem C9_image_failure_keeps_text_and_links (aiMessage : String)
    (parseJson : String → Option Payload) (genImage : String → Option String)
    (payload : Payload)
    (hp : parseJson (cleanFenced aiMessage) = some payload)
    (ht : payload.ptype = "text+image+links")
    (hi : optTruthy payload.image_prompt = true)
    (hfail : genImage (payload.image_prompt.getD "") = none) :
    buildResponse true aiMessage parseJson genImage =
      { message := payload.text, source := "ai",
        links := some (payload.links.getD []), generated_image := none } ∧
    ∀ genImage2 : String → Option String,
      (buildResponse true aiMessage parseJson genImage2).message = payload.text ∧
      (buildResponse true aiMessage parseJson genImage2).links =
        some (payload.links.getD []) := by
  have hcond : (payload.ptype == "text+image+links") = true ∧
      optTruthy payload.image_prompt = true := by
    refine ⟨?_, hi⟩
    rw [ht]
    rfl
  constructor
  · simp only [buildResponse, hp]
    rw [if_pos hcond, hfail]
    simp
  · intro genImage2
    simp only [buildResponse, hp]
    rw [if_pos hcond]
    exact ⟨rfl, rfl⟩

/-- C9 witness: with a concrete parsed payload and a failing image
call the text and links survive and the image is simply absent. -/
theorem C9_witness :
    buildResponse true "ignored"
      (fun _ => some { ptype := "text+image+links", text := "An AVL tree is balanced",
                       image_prompt := some "avl tree diagram",
                       links := some [⟨"Wikipedia", "https://en.wikipedia.org/wiki/AVL_tree"⟩] })
      (fun _ => none) =
      { message := "An AVL tree is balanced", source := "ai",
        links := some [⟨"Wikipedia", "https://en.wikipedia.org/wiki/AVL_tree"⟩],
        generated_image := none } ∧
    (buildResponse true "ignored"
      (fun _ => some { ptype := "text+image+links", text := "An AVL tree is balanced",
                       image_prompt := some "avl tree diagram",
                       links := some [⟨"Wikipedia", "https://en.wikipedia.org/wiki/AVL_tree"⟩] })
      (fun _ => some "https://img.example/avl.png")).message = "An AVL tree is balanced" := by
  have h := C9_image_failure_keeps_text_and_links "ignored"
    (fun _ => some { ptype := "text+image+links", text := "An AVL tree is balanced",
                     image_prompt := some "avl tree diagram",
                     links := some [⟨"Wikipedia", "https://en.wikipedia.org/wiki/AVL_tree"⟩] })
    (fun _ => none)
    { ptype := "text+image+links", text := "An AVL tree is balanced",
      image_prompt := some "avl tree diagram",
      links := some [⟨"Wikipedia", "https://en.wikipedia.org/wiki/AVL_tree"⟩] }
    rfl rfl rfl rfl
  exact ⟨h.1, (h.2 (fun _ => some "https://img.example/avl.png")).1⟩

/-- C10: the structured payload is parsed only when the last user
message satisfies the image trigger decision; for every non-triggering
query the raw model output comes back verbatim as plain text even if it
is a well-formed payload, so links or a generated image in the response
imply the query text triggered image generation. -/
theorem C10_parse_gated_by_trigger (lastUserMessage aiMessage : String)
    (parseJson : String → Option Payload) (genImage : String → Option String) :
    (shouldGenerateImage lastUserMessage = false →
      handleChat lastUserMessage aiMessage parseJson genImage =
        { message := aiMessage, source := "ai", generated_image := none, links := none }) ∧
    (((handleChat lastUserMessage aiMessage parseJson genImage).links ≠ none ∨
      (handleChat lastUserMessage aiMessage parseJson genImage).generated_image ≠ none) →
      shouldGenerateImage lastUserMessage = true) := by
  constructor
  · intro h
    unfold handleChat
    rw [h]
    rfl
  · intro h
    cases hg : shouldGenerateImage lastUserMessage with
    | true => rfl
    | false =>
      unfold handleChat at h
      rw [hg] at h
      rcases h with h | h <;> exact absurd rfl h

/-- C10 witness: a fee query never triggers parsing, so even a
well-formed structured payload comes back verbatim with no links and no
image. -/
theorem C10_witness :
    handleChat "what are the college fees" "\x7b\"type\": \"text+image+links\"\x7d"
      (fun _ => some { ptype := "text+image+links", text := "ignored",
                       image_prompt := some "x", links := some [] })
      (fun _ => some "https://img.example/x.png") =
      { message := "\x7b\"type\": \"text+image+links\"\x7d", source := "ai",
        generated_image := none, links := none } :=
  (C10_parse_gated_by_trigger "what are the college fees" _ _ _).1 (by decide)

/-- An Explanation-only query makes the engine return no match before
any scoring. -/
theorem findBestMatch_explanation {content : String} {questions : List Question}
    (h : isExplanationQuery content = true) :
    findBestMatch content false questions = none := by
  unfold findBestMatch
  rw [if_neg (by simp), if_pos (by rw [h])]

/-- Membership among the above-threshold candidates lives inside the
full scored list. -/
theorem mem_candidates_scoreAll {content : String} {questions : List Question} {x : ScoredQ}
    (h : x ∈ candidatesAboveThreshold content questions) :
    x ∈ scoreAll (normalizeText content) (extractKeyTerms content) 0 questions := by
  unfold candidatesAboveThreshold at h
  exact (List.mem_filter.mp h).1

/-- C5: a query whose meaningful terms are a single common word raises
the confidence threshold from 70 to 85, so no candidate scoring below
85 is ever carried by the outcome, and if every entry scores below 85
the query escalates as no match. -/
theorem C5_vague_query_raises_threshold (content : String) (questions : List Question)
    (w : String) (hw : extractKeyTerms content = [w]) (hmem : w ∈ singleCommonWords) :
    confidenceThreshold content = 85 ∧
    (∀ m, findBestMatch content false questions = some (.confident m) → 85 ≤ m.score) ∧
    (∀ L m, findBestMatch content false questions = some (.ambiguous L) → m ∈ L →
      85 ≤ m.score) ∧
    ((∀ q ∈ questions,
        (scoreQuestion (normalizeText content) (extractKeyTerms content) q).1 < 85) →
      findBestMatch content false questions = none) := by
  have hvague : isVagueQuery content = true := by
    unfold isVagueQuery
    rw [hw]
    simpa using hmem
  have hth : confidenceThreshold content = 85 := by
    unfold confidenceThreshold
    rw [hvague]
    rfl
  have hML : ∀ x ∈ sortDesc (candidatesAboveThreshold content questions), 85 ≤ x.score := by
    intro x hx
    have hx' := (sortDesc_perm _).mem_iff.mp hx
    have h85 := (mem_candidates hx').2.1
    rw [hth] at h85
    exact h85
  refine ⟨hth, ?_⟩
  cases hexp : isExplanationQuery content with
  | true =>
    have hnone := @findBestMatch_explanation content questions hexp
    refine ⟨?_, ?_, ?_⟩
    · intro m hm
      rw [hnone] at hm
      exact Option.noConfusion hm
    · intro L m hm
      rw [hnone] at hm
      exact Option.noConfusion hm
    · intro _
      exact hnone
  | false =>
    cases hs : sortDesc (candidatesAboveThreshold content questions) with
    | nil =>
      have hnone := findBestMatch_nil hs
      refine ⟨?_, ?_, ?_⟩
      · intro m hm
        rw [hnone] at hm
        exact Option.noConfusion hm
      · intro L m hm
        rw [hnone] at hm
        exact Option.noConfusion hm
      · intro _
        exact hnone
    | cons h0 t =>
      have hred := findBestMatch_cons hexp hs
      have hh0 : 85 ≤ h0.score := hML h0 (by rw [hs]; exact List.mem_cons_self _ _)
      refine ⟨?_, ?_, ?_⟩
      · intro m hm
        rw [hred] at hm
        split at hm
        · exact absurd (Option.some.inj hm) (by intro hc; exact MatchResult.noConfusion hc)
        · have := Option.some.inj hm
          have hm0 : m = h0 := by
            cases this
            rfl
          rw [hm0]
          exact hh0
      · intro L m hm hmL
        rw [hred] at hm
        split at hm
        · have hL := Option.some.inj hm
          have hLeq : L = ((h0 :: t).filter (fun m => h0.score - 5 ≤ m.score)).take 3 := by
            cases hL
            rfl
          rw [hLeq] at hmL
          have hmf := List.mem_of_mem_take hmL
          have hmS : m ∈ h0 :: t := List.mem_of_mem_filter hmf
          exact hML m (by rw [hs]; exact hmS)
        · exact absurd (Option.some.inj hm) (by intro hc; exact MatchResult.noConfusion hc)
      · intro hall
        exfalso
        have hh0C : h0 ∈ candidatesAboveThreshold content questions :=
          (sortDesc_perm _).mem_iff.mp (by rw [hs]; exact List.mem_cons_self _ _)
        obtain ⟨hq, _, hsc, _⟩ := mem_candidates hh0C
        have := hall h0.q hq
        rw [← hsc] at this
        linarith

/-- C5 witness: the bare query fees raises the threshold to 85 and
escalates against an entry that it cannot reach 85 on. -/
theorem C5_witness :
    confidenceThreshold "fees" = 85 ∧
    findBestMatch "fees" false
      [{ question_en := "what are bca fees", answer_en := "BCA fees are 50000" }] = none := by
  have h := C5_vague_query_raises_threshold "fees"
    [{ question_en := "what are bca fees", answer_en := "BCA fees are 50000" }]
    "fees" (by decide) (by decide)
  exact ⟨h.1, h.2.2.2 (by decide)⟩

/-- C1 (amended): a query whose raw text normalizes to the question
text of an entry is always scored 100 with reason exact; and when the
query carries no image, is not Explanation-only, and the entry is the
first one whose normalized question equals the normalized query, the
resolver returns Confident carrying exactly that entry. -/
theorem C1_exact_match_confident (content : String) (e : Question)
    (pre post : List Question)
    (hn : normalizeText content = normalizeText e.question_en)
    (hexp : isExplanationQuery content = false)
    (hfirst : ∀ e2 ∈ pre, normalizeText e2.question_en ≠ normalizeText content) :
    scoreQuestion (normalizeText content) (extractKeyTerms content) e = (100, "exact") ∧
    ∃ m, findBestMatch content false (pre ++ e :: post) = some (.confident m) ∧
      m.q = e ∧ m.score = 100 ∧ m.reason = "exact" := by
  have hscore := scoreQuestion_of_exact (extractKeyTerms content) e hn
  refine ⟨hscore, ?_⟩
  have hz : (0 : Nat) + pre.length = pre.length := Nat.zero_add _
  have hmemS : (⟨e, pre.length, 100, "exact"⟩ : ScoredQ) ∈
      scoreAll (normalizeText content) (extractKeyTerms content) 0 (pre ++ e :: post) := by
    rw [scoreAll_append, hz]
    apply List.mem_append_right
    simp only [scoreAll]
    rw [hscore]
    exact List.mem_cons_self _ _
  have hCmem : (⟨e, pre.length, 100, "exact"⟩ : ScoredQ) ∈
      candidatesAboveThreshold content (pre ++ e :: post) := by
    unfold candidatesAboveThreshold
    exact List.mem_filter.mpr ⟨hmemS, decide_eq_true (confidenceThreshold_le_100 content)⟩
  obtain ⟨h0, t, hs⟩ : ∃ h0 t,
      sortDesc (candidatesAboveThreshold content (pre ++ e :: post)) = h0 :: t := by
    cases hS : sortDesc (candidatesAboveThreshold content (pre ++ e :: post)) with
    | nil =>
      exfalso
      have := (sortDesc_perm _).mem_iff.mpr hCmem
      rw [hS] at this
      exact absurd this (List.not_mem_nil _)
    | cons a b => exact ⟨a, b, rfl⟩
  have hh0C : h0 ∈ candidatesAboveThreshold content (pre ++ e :: post) :=
    (sortDesc_perm _).mem_iff.mp (by rw [hs]; exact List.mem_cons_self _ _)
  have hmax := head_score_max hs
  have h100le : (100 : ℚ) ≤ h0.score := hmax _ hCmem
  obtain ⟨hq0, _, hsc0, hr0⟩ := mem_candidates hh0C
  have hle100 : h0.score ≤ 100 := by
    rw [hsc0]
    exact scoreQuestion_le_100 _ _ _
  have hh0score : h0.score = 100 := le_antisymm hle100 h100le
  have h0eq := scoreQuestion_eq_100 (by rw [← hsc0]; exact hh0score :
    (scoreQuestion (normalizeText content) (extractKeyTerms content) h0.q).1 = 100)
  have hcond : ¬ (1 < ((h0 :: t).filter (fun m => h0.score - 5 ≤ m.score)).length ∧
      h0.score < 90) := by
    rintro ⟨_, hlt⟩
    rw [hh0score] at hlt
    norm_num at hlt
  have hres : findBestMatch content false (pre ++ e :: post) = some (.confident h0) := by
    rw [findBestMatch_cons hexp hs, if_neg hcond]
  have hh0me : h0 = (⟨e, pre.length, 100, "exact"⟩ : ScoredQ) := by
    have hme_mem_S : (⟨e, pre.length, 100, "exact"⟩ : ScoredQ) ∈ h0 :: t := by
      rw [← hs]
      exact (sortDesc_perm _).mem_iff.mpr hCmem
    rcases List.mem_cons.mp hme_mem_S with heq | hmet
    · exact heq.symm
    · exfalso
      have hpw := sortDesc_pairwise_lexR (candidates_pairwise_idx content (pre ++ e :: post))
      rw [hs] at hpw
      have hlex : lexR h0 ⟨e, pre.length, 100, "exact"⟩ :=
        (List.pairwise_cons.mp hpw).1 _ hmet
      rcases hlex with hlt | ⟨_, hidxlt⟩
      · rw [hh0score] at hlt
        exact absurd hlt (by norm_num)
      · have hh0S := mem_candidates_scoreAll hh0C
        rw [scoreAll_append, hz] at hh0S
        rcases List.mem_append.mp hh0S with hpre | hpost
        · have hqpre := (mem_scoreAll hpre).1
          exact absurd h0eq.2.symm (hfirst h0.q hqpre)
        · have hidxge := (mem_scoreAll hpost).2.1
          simp only [] at hidxlt
          omega
  refine ⟨h0, hres, ?_, hh0score, ?_⟩
  · rw [hh0me]
  · rw [hr0, h0eq.1]

/-- C1 counterexample: for the Explanation-only query computer science
the scorer does assign 100 with reason exact to the identically named
entry, yet the resolver escalates with no match instead of returning
Confident, refuting the unconditional claim. -/
theorem C1_counterexample :
    scoreQuestion (normalizeText "computer science") (extractKeyTerms "computer science")
      { question_en := "computer science", answer_en := "CS overview" } = (100, "exact") ∧
    findBestMatch "computer science" false
      [{ question_en := "computer science", answer_en := "CS overview" }] = none := by
  refine ⟨?_, ?_⟩ <;> decide

/-- C1 witness: an exact normalized match on a fee question resolves
Confident with that entry, score 100, reason exact. -/
theorem C1_witness :
    ∃ m, findBestMatch "What are the BCA fees?" false
        [{ question_en := "What are the BCA fees", answer_en := "BCA fees are 50000" }] =
        some (.confident m) ∧
      m.q = { question_en := "What are the BCA fees", answer_en := "BCA fees are 50000" } ∧
      m.score = 100 ∧ m.reason = "exact" :=
  (C1_exact_match_confident "What are the BCA fees?"
    { question_en := "What are the BCA fees", answer_en := "BCA fees are 50000" }
    [] [] (by decide) (by decide) (by intro e2 he2; exact absurd he2 (List.not_mem_nil e2))).2

/-- An above-threshold candidate scoring below 90 scores exactly 72 or
exactly 85: those are the only achievable scores in the window. -/
theorem candidate_score_coarse {content : String} {questions : List Question} {x : ScoredQ}
    (hx : x ∈ candidatesAboveThreshold content questions) (hlt : x.score < 90) :
    x.score = 72 ∨ x.score = 85 := by
  obtain ⟨_, hth, hsc, _⟩ := mem_candidates hx
  have h70 : (70 : ℚ) ≤ x.score := le_trans (confidenceThreshold_ge_70 content) hth
  rcases scoreQuestion_range (normalizeText content) (extractKeyTerms content) x.q with
    h | h | h | ⟨h, _⟩
  · rw [← hsc] at h
    linarith
  · rw [← hsc] at h
    exact Or.inl h
  · rw [← hsc] at h
    exact Or.inr h
  · rw [← hsc] at h
    linarith

/-- C4: among the above-threshold candidates, with top the maximum
score and the cluster those scoring within the margin 5 of top: when
the cluster has more than one member and top is below 90 the outcome is
Ambiguous carrying up to the top 3 cluster members ordered by score
descending with ties kept in original entry order; otherwise the
outcome is Confident with the earliest top-scoring candidate — in
particular a uniquely achieved top score always yields Confident. -/
theorem C4_resolver_clustering (content : String) (questions : List Question) (top : ℚ)
    (hexp : isExplanationQuery content = false)
    (hmemtop : ∃ m ∈ candidatesAboveThreshold content questions, m.score = top)
    (hmax : ∀ m ∈ candidatesAboveThreshold content questions, m.score ≤ top) :
    ((1 < (clusterAt content questions top).length ∧ top < 90) →
      ∃ L, findBestMatch content false questions = some (.ambiguous L) ∧
        L.length = min 3 (clusterAt content questions top).length ∧
        (∀ x ∈ L, x ∈ clusterAt content questions top) ∧
        L.Pairwise lexR ∧
        (∀ x ∈ L, ∀ y ∈ clusterAt content questions top, y ∉ L → lexR x y)) ∧
    (¬ (1 < (clusterAt content questions top).length ∧ top < 90) →
      ∃ m, findBestMatch content false questions = some (.confident m) ∧
        m ∈ candidatesAboveThreshold content questions ∧ m.score = top ∧
        ∀ y ∈ candidatesAboveThreshold content questions, y.score = top → m.idx ≤ y.idx) ∧
    ((∀ y ∈ candidatesAboveThreshold content questions,
        ∀ z ∈ candidatesAboveThreshold content questions,
        y.score = top → z.score = top → y = z) →
      ∃ m, findBestMatch content false questions = some (.confident m) ∧ m.score = top) := by
  obtain ⟨m0, hm0C, hm0s⟩ := hmemtop
  obtain ⟨h0, t, hs⟩ : ∃ h0 t,
      sortDesc (candidatesAboveThreshold content questions) = h0 :: t := by
    cases hS : sortDesc (candidatesAboveThreshold content questions) with
    | nil =>
      exfalso
      have hm := (sortDesc_perm _).mem_iff.mpr hm0C
      rw [hS] at hm
      exact absurd hm (List.not_mem_nil _)
    | cons a b => exact ⟨a, b, rfl⟩
  have hh0C : h0 ∈ candidatesAboveThreshold content questions :=
    (sortDesc_perm _).mem_iff.mp (by rw [hs]; exact List.mem_cons_self _ _)
  have hh0top : h0.score = top := by
    refine le_antisymm (hmax h0 hh0C) ?_
    rw [← hm0s]
    exact head_score_max hs m0 hm0C
  have hSmem : ∀ x, x ∈ h0 :: t ↔ x ∈ candidatesAboveThreshold content questions := by
    intro x
    rw [← hs]
    exact (sortDesc_perm _).mem_iff
  have hpredeq : (fun m : ScoredQ => decide (h0.score - 5 ≤ m.score)) =
      (fun m : ScoredQ => decide (top - 5 ≤ m.score)) := by
    rw [hh0top]
  have hfperm : List.Perm ((h0 :: t).filter (fun m => h0.score - 5 ≤ m.score))
      (clusterAt content questions top) := by
    unfold clusterAt
    rw [show ((h0 :: t).filter (fun m => h0.score - 5 ≤ m.score)) =
        ((h0 :: t).filter (fun m => top - 5 ≤ m.score)) from by rw [hpredeq]]
    rw [← hs]
    exact (sortDesc_perm _).filter _
  have hlen : ((h0 :: t).filter (fun m => h0.score - 5 ≤ m.score)).length =
      (clusterAt content questions top).length := hfperm.length_eq
  have hSpw : (h0 :: t).Pairwise lexR := by
    rw [← hs]
    exact sortDesc_pairwise_lexR (candidates_pairwise_idx content questions)
  have hconf : ¬ (1 < (clusterAt content questions top).length ∧ top < 90) →
      ∃ m, findBestMatch content false questions = some (.confident m) ∧
        m ∈ candidatesAboveThreshold content questions ∧ m.score = top ∧
        ∀ y ∈ candidatesAboveThreshold content questions, y.score = top → m.idx ≤ y.idx := by
    intro hncl
    have hcond : ¬ (1 < ((h0 :: t).filter (fun m => h0.score - 5 ≤ m.score)).length ∧
        h0.score < 90) := by
      rw [hlen, hh0top]
      exact hncl
    refine ⟨h0, by rw [findBestMatch_cons hexp hs, if_neg hcond], hh0C, hh0top, ?_⟩
    intro y hyC hytop
    rcases List.mem_cons.mp ((hSmem y).mpr hyC) with rfl | hyt
    · exact le_refl _
    · rcases (List.pairwise_cons.mp hSpw).1 y hyt with hlt | ⟨_, hidx⟩
      · rw [hytop, hh0top] at hlt
        exact absurd hlt (lt_irrefl top)
      · exact le_of_lt hidx
  refine ⟨?_, hconf, ?_⟩
  · intro hcl
    have hcond : 1 < ((h0 :: t).filter (fun m => h0.score - 5 ≤ m.score)).length ∧
        h0.score < 90 := by
      rw [hlen, hh0top]
      exact hcl
    refine ⟨((h0 :: t).filter (fun m => h0.score - 5 ≤ m.score)).take 3,
      by rw [findBestMatch_cons hexp hs, if_pos hcond], ?_, ?_, ?_, ?_⟩
    · rw [List.length_take, hlen]
    · intro x hx
      exact hfperm.mem_iff.mp (List.mem_of_mem_take hx)
    · exact List.Pairwise.sublist (List.take_sublist 3 _) (List.Pairwise.filter _ hSpw)
    · intro x hx y hyc hyn
      have hFpw : ((h0 :: t).filter (fun m => h0.score - 5 ≤ m.score)).Pairwise lexR :=
        List.Pairwise.filter _ hSpw
      have hyF : y ∈ (h0 :: t).filter (fun m => h0.score - 5 ≤ m.score) :=
        hfperm.mem_iff.mpr hyc
      have hsplit := List.take_append_drop 3
        ((h0 :: t).filter (fun m => h0.score - 5 ≤ m.score))
      rw [← hsplit] at hFpw hyF
      rcases List.mem_append.mp hyF with hyt | hyd
      · exact absurd hyt hyn
      · exact ((List.pairwise_append.mp hFpw).2.2) x hx y hyd
  · intro huniq
    have hncl : ¬ (1 < (clusterAt content questions top).length ∧ top < 90) := by
      rintro ⟨hlen2, hlt90⟩
      obtain ⟨a, b, r, hab⟩ : ∃ a b r,
          clusterAt content questions top = a :: b :: r := by
        cases hc1 : clusterAt content questions top with
        | nil =>
          rw [hc1] at hlen2
          simp at hlen2
        | cons a rest =>
          cases rest with
          | nil =>
            rw [hc1] at hlen2
            simp at hlen2
          | cons b r => exact ⟨a, b, r, rfl⟩
      have hclpw : (clusterAt content questions top).Pairwise
          (fun x y : ScoredQ => x.idx < y.idx) := by
        unfold clusterAt
        exact List.Pairwise.filter _ (candidates_pairwise_idx content questions)
      have hmemcl : ∀ x ∈ clusterAt content questions top,
          x ∈ candidatesAboveThreshold content questions ∧ top - 5 ≤ x.score := by
        intro x hx
        unfold clusterAt at hx
        have h1 := List.mem_filter.mp hx
        exact ⟨h1.1, of_decide_eq_true h1.2⟩
      have hscore_top : ∀ x ∈ clusterAt content questions top, x.score = top := by
        intro x hx
        obtain ⟨hxC, hxm⟩ := hmemcl x hx
        have hxle : x.score ≤ top := hmax x hxC
        have hxlt90 : x.score < 90 := lt_of_le_of_lt hxle hlt90
        have htoplt90 : m0.score < 90 := by
          rw [hm0s]
          exact hlt90
        rcases candidate_score_coarse hxC hxlt90 with hx72 | hx85 <;>
          rcases candidate_score_coarse hm0C htoplt90 with ht72 | ht85
        · rw [hx72, ← hm0s, ht72]
        · rw [hm0s] at ht85
          rw [hx72] at hxm ⊢
          rw [ht85] at hxm
          linarith
        · rw [hm0s] at ht72
          rw [hx85] at hxle
          rw [ht72] at hxle
          linarith
        · rw [hx85, ← hm0s, ht85]
      have hamem : a ∈ clusterAt content questions top := by
        rw [hab]
        exact List.mem_cons_self _ _
      have hbmem : b ∈ clusterAt content questions top := by
        rw [hab]
        exact List.mem_cons_of_mem _ (List.mem_cons_self _ _)
      have hab_eq : a = b :=
        huniq a (hmemcl a hamem).1 b (hmemcl b hbmem).1
          (hscore_top a hamem) (hscore_top b hbmem)
      have hablt : a.idx < b.idx := by
        rw [hab] at hclpw
        exact (List.pairwise_cons.mp hclpw).1 b (List.mem_cons_self _ _)
      rw [hab_eq] at hablt
      exact absurd hablt (lt_irrefl _)
    obtain ⟨m, hm1, _, hm3, _⟩ := hconf hncl
    exact ⟨m, hm1, hm3⟩

/-- C4 witness: two entries tie at 85 below 90 while a third scores 0,
so the outcome is Ambiguous with exactly the two close candidates. -/
theorem C4_witness :
    ∃ L, findBestMatch "bca mca bba fees" false
        [{ question_en := "bca fees", answer_en := "BCA fee answer" },
         { question_en := "mca fees", answer_en := "MCA fee answer" },
         { question_en := "hostel info", answer_en := "Hostel answer" }] =
        some (.ambiguous L) ∧ L.length = 2 ∧ L.Pairwise lexR := by
  obtain ⟨L, hL, hlen, _, hpw, _⟩ := (C4_resolver_clustering "bca mca bba fees"
    [{ question_en := "bca fees", answer_en := "BCA fee answer" },
     { question_en := "mca fees", answer_en := "MCA fee answer" },
     { question_en := "hostel info", answer_en := "Hostel answer" }] 85
    (by decide) (by decide) (by decide)).1 (by refine ⟨?_, by norm_num⟩; decide)
  refine ⟨L, hL, ?_, hpw⟩
  rw [hlen]
  decide
